import Mathlib

/-!
Verification of the Kanellakis–Smolka strong-bisimilarity checker (`bisim.py`).

The Python core consists of an `LTS` record (a set of states, a set of
actions, and a transition table mapping each source state to the ordered list
of its outgoing `(action, target)` pairs), the `split_block` signature
grouping, the `kanellakis_smolka` partition-refinement loop, and the
`are_bisimilar` oracle that relabels two LTSs into disjoint namespaces,
merges them, refines, and inspects the final partition.

Embedding conventions:
- Python `str` values are `String`.
- Python sets of strings (`lts.states`, `lts.actions`) are duplicate-free
  `List String` values used with set (membership) semantics; Python's
  unspecified set-iteration order is modelled by the list order.
- The per-source transition lists of the `defaultdict(list)` are flattened
  into one insertion-ordered list of `(source, action, target)` triples;
  `transitions.get(state, [])` becomes `transFrom`, which preserves the
  per-source order.
- Blocks of a partition are `Finset String` (Python uses `Set[str]` /
  `frozenset`), and a partition is a `List` of blocks, as in the source.
- The `while changed:` loop is modelled by fuel-based recursion; the fuel
  `|states|` is proved sufficient (the returned partition is a fixed point).
-/

namespace KS

/-- A block of a partition: a finite set of state names (`Set[str]` in the
source). -/
abbrev Block := Finset String

/-- The `LTS` record of `bisim.py` (lines 4-9): a state set, an action set,
and the transition table, flattened to an insertion-ordered list of
`(source, action, target)` triples. -/
structure LTS where
  states : List String
  actions : List String
  trans : List (String × String × String)

/-- Adding an element to a Python set: append it if and only if it is not
already present. -/
def insertNew (l : List String) (x : String) : List String :=
  if x ∈ l then l else l ++ [x]

/-- The method `add_transition` (`bisim.py` lines 11-14): append the triple to
the transition list, add both endpoints to `states`, and add the action to
`actions`. -/
def add_transition (lts : LTS) (source action target : String) : LTS :=
  { states := insertNew (insertNew lts.states source) target
    actions := insertNew lts.actions action
    trans := lts.trans ++ [(source, action, target)] }

/-- The fresh state name `f"{tag}_{state}"` built by `prefix_states`
(`bisim.py` line 20). -/
def stateMap (tag : String) (s : String) : String := tag ++ "_" ++ s

/-- The method `prefix_states` (`bisim.py` lines 16-36): rewrite every state
and every transition endpoint through `stateMap tag`, leaving actions
untouched.  The returned Python mapping is `stateMap tag` restricted to the
old state set. -/
def prefix_states (lts : LTS) (tag : String) : LTS :=
  { states := lts.states.map (stateMap tag)
    actions := lts.actions
    trans := lts.trans.map (fun tr => (stateMap tag tr.1, tr.2.1, stateMap tag tr.2.2)) }

/-- The lookup `transitions.get(state, [])`: the ordered list of
`(action, target)` pairs leaving `state`. -/
def transFrom (transitions : List (String × String × String)) (state : String) :
    List (String × String) :=
  transitions.filterMap (fun tr => if tr.1 = state then some tr.2 else none)

/-- The inner loop of `split_block` (`bisim.py` lines 126-131): the first
block of `partition` containing `target`, if any (`break` after the first
hit). -/
def findBlock (partition : List Block) (target : String) : Option Block :=
  partition.find? (fun B => decide (target ∈ B))

/-- The signature computed for each state by `split_block` (`bisim.py` lines
122-134): the set of partition blocks reachable from `state` by one
`action`-labelled transition. -/
def signature (transitions : List (String × String × String)) (action : String)
    (partition : List Block) (state : String) : Finset Block :=
  ((transFrom transitions state).filterMap
    (fun p => if p.1 = action then findBlock partition p.2 else none)).toFinset

/-- A total order on strings by the numeric values of their characters, used
only to enumerate the elements of a block in a fixed order (Python iterates
its sets in an unspecified but fixed order). -/
def strKey (s : String) : List Nat := s.data.map (fun c => c.toNat)

/-- String comparison through strKey. -/
def strLe (s t : String) : Prop := strKey s ≤ strKey t

instance : DecidableRel strLe := fun s t => by
  unfold strLe
  infer_instance

instance : IsTotal String strLe := ⟨fun s t => le_total (strKey s) (strKey t)⟩

instance : IsTrans String strLe := ⟨fun _ _ _ h1 h2 => le_trans h1 h2⟩

instance : IsAntisymm String strLe :=
  ⟨fun s t h1 h2 => by
    have h := le_antisymm h1 h2
    unfold strKey at h
    have hd : s.data = t.data := by
      refine List.map_injective_iff.mpr ?_ h
      intro a b hab
      exact Char.ext (UInt32.ext (by simpa [Char.toNat] using hab))
    cases s; cases t; simp_all⟩

/-- The elements of a block as a list in a fixed order, modelling Python's
(unspecified but fixed) set-iteration order by the strLe-sorted order. -/
def sortedList (B : Block) : List String :=
  Quot.liftOn B.val (fun l => l.insertionSort strLe)
    (fun l1 l2 h =>
      List.eq_of_perm_of_sorted
        ((l1.perm_insertionSort strLe).trans
          ((h : l1.Perm l2).trans (l2.perm_insertionSort strLe).symm))
        (List.sorted_insertionSort _ l1) (List.sorted_insertionSort _ l2))

/-- The function `split_block` (`bisim.py` lines 114-137): group the states of
`block` by their signature and return one sub-block per distinct signature.
The source's dict-of-groups is modelled by listing the distinct signatures and
filtering `block` by each; group order follows Python's unspecified set/dict
iteration order, which no claim depends on. -/
def split_block (block : Block) (action : String) (partition : List Block)
    (transitions : List (String × String × String)) : List Block :=
  let sigs := ((sortedList block).map (signature transitions action partition)).dedup
  sigs.map (fun k => block.filter (fun s => signature transitions action partition s = k))

/-- The action loop inside `kanellakis_smolka` (`bisim.py` lines 190-197): try
each action in order and return the sub-blocks of the first action that splits
`block` into more than one group; `none` when no action splits it. -/
def splitFirst : List String → Block → List Block → List (String × String × String) →
    Option (List Block)
  | [], _, _, _ => none
  | a :: rest, block, partition, transitions =>
    let subs := split_block block a partition transitions
    if 1 < subs.length then some subs else splitFirst rest block partition transitions

/-- Processing of one block inside a pass of `kanellakis_smolka` (`bisim.py`
lines 183-200): blocks of size at most one are kept unchanged; otherwise the
block is replaced by the sub-blocks of the first splitting action, if any.
The boolean is the block's contribution to the `changed` flag. -/
def refineBlock (lts : LTS) (partition : List Block) (block : Block) :
    List Block × Bool :=
  if block.card ≤ 1 then ([block], false)
  else
    match splitFirst lts.actions block partition lts.trans with
    | some subs => (subs, true)
    | none => ([block], false)

/-- One full pass of the `while changed:` loop of `kanellakis_smolka`
(`bisim.py` lines 181-200): refine every block against the current partition
and concatenate the results; the flag records whether any block was split. -/
def onePass (lts : LTS) (partition : List Block) : List Block × Bool :=
  let results := partition.map (refineBlock lts partition)
  ((results.map Prod.fst).flatten, results.any Prod.snd)

/-- The `while changed:` loop of `kanellakis_smolka` (`bisim.py` lines
179-207), with explicit fuel: repeat passes until one makes no change (the
fuel passed by `kanellakis_smolka` is proved sufficient below). -/
def ksLoop (lts : LTS) : Nat → List Block → List Block
  | 0, partition => partition
  | fuel + 1, partition =>
    let r := onePass lts partition
    if r.2 then ksLoop lts fuel r.1 else partition

/-- The function `kanellakis_smolka` (`bisim.py` lines 166-207): the empty
LTS yields the empty partition; otherwise refine the trivial one-block
partition to a fixed point. -/
def kanellakis_smolka (lts : LTS) : List Block :=
  if lts.states.toFinset = ∅ then []
  else ksLoop lts lts.states.toFinset.card [lts.states.toFinset]

/-- The set-union of two state lists, as done by `combined.states.update` in
`are_bisimilar` (`bisim.py` lines 278-279). -/
def listUnion (l1 l2 : List String) : List String :=
  l1 ++ l2.filter (fun x => decide (x ∉ l1))

/-- The merged LTS built by `are_bisimilar` (`bisim.py` lines 276-288): the
union of the two (already relabelled) state sets, the shared action alphabet,
and the concatenation of the two transition lists. -/
def combineLTS (l1 l2 : LTS) : LTS :=
  { states := listUnion l1.states l2.states
    actions := l1.actions
    trans := l1.trans ++ l2.trans }

/-- Python's unordered set equality `lts1.actions != lts2.actions`
(`bisim.py` line 263), as mutual inclusion of the action lists. -/
def actionsSetEq (l1 l2 : List String) : Bool :=
  l1.all (fun a => l2.contains a) && l2.all (fun a => l1.contains a)

/-- The core of `are_bisimilar` (`bisim.py` lines 247-297) past the
out-of-scope file loading, with the structured signature of the spec:
short-circuit on an alphabet mismatch, relabel the two LTSs into the disjoint
namespaces `L1` and `L2`, merge them, run `kanellakis_smolka`, and answer
whether some final block contains both relabelled initial states. -/
def are_bisimilar (lts1 : LTS) (init1 : String) (lts2 : LTS) (init2 : String) : Bool :=
  if actionsSetEq lts1.actions lts2.actions = false then false
  else
    let l1 := prefix_states lts1 "L1"
    let l2 := prefix_states lts2 "L2"
    let i1 := stateMap "L1" init1
    let i2 := stateMap "L2" init2
    let combined := combineLTS l1 l2
    let finalPartition := kanellakis_smolka combined
    finalPartition.any (fun B => decide (i1 ∈ B) && decide (i2 ∈ B))

/-- Well-formedness of an LTS (spec section 3): every transition endpoint is a
member of the state set and every transition action a member of the action
set. -/
def wf (lts : LTS) : Prop :=
  ∀ tr ∈ lts.trans, tr.1 ∈ lts.states ∧ tr.2.1 ∈ lts.actions ∧ tr.2.2 ∈ lts.states

instance (lts : LTS) : Decidable (wf lts) := by
  unfold wf
  infer_instance

/-- The union of the blocks of a partition. -/
def blocksUnion (P : List Block) : Finset String := P.foldr (· ∪ ·) ∅

/-- Validity of a partition of the finite state set `S` (spec section 3):
blocks are non-empty, pairwise disjoint, and cover `S` exactly. -/
def isPartition (S : Finset String) (P : List Block) : Prop :=
  (∀ B ∈ P, B.Nonempty) ∧ List.Pairwise (fun A B => Disjoint A B) P ∧ blocksUnion P = S

instance (S : Finset String) (P : List Block) : Decidable (isPartition S P) := by
  unfold isPartition
  infer_instance

/-- Two states lie together in some block of the partition. -/
def inSameBlock (P : List Block) (s t : String) : Prop := ∃ B ∈ P, s ∈ B ∧ t ∈ B

instance (P : List Block) (s t : String) : Decidable (inSameBlock P s t) := by
  unfold inSameBlock
  infer_instance

/-- One labelled step of the LTS: the triple is in the transition list. -/
def stepsTo (lts : LTS) (s a t : String) : Prop := (s, a, t) ∈ lts.trans

/-- A strong bisimulation on the LTS: related states match each other's
labelled steps into related states. -/
def IsBisimulation (lts : LTS) (R : String → String → Prop) : Prop :=
  ∀ s t, R s t →
    (∀ a u, stepsTo lts s a u → ∃ v, stepsTo lts t a v ∧ R u v) ∧
    (∀ a v, stepsTo lts t a v → ∃ u, stepsTo lts s a u ∧ R u v)

/-- Strong bisimilarity: the two states are related by some bisimulation. -/
def Bisimilar (lts : LTS) (s t : String) : Prop :=
  ∃ R, IsBisimulation lts R ∧ R s t

/-- The refinement invariant for a candidate bisimulation R: states of the LTS
related by R are never separated by the current partition. -/
def respects (lts : LTS) (P : List Block) (R : String → String → Prop) : Prop :=
  ∀ s t, R s t → s ∈ lts.states → t ∈ lts.states → ∀ B ∈ P, (s ∈ B ↔ t ∈ B)

/-- A three-state example LTS used to exhibit concrete runs: the state s
branches on action a into s1 and s2, and s1 takes action b to the deadlock
state s2. -/
def exLTS : LTS :=
  ⟨["s", "s1", "s2"], ["a", "b"],
    [("s", "a", "s1"), ("s", "a", "s2"), ("s1", "b", "s2")]⟩

/-- A one-state, transition-free example LTS with an empty alphabet. -/
def exOne : LTS := ⟨["s"], [], []⟩

/-- A second one-state, transition-free example LTS, with another state
name. -/
def exTwo : LTS := ⟨["t"], [], []⟩

/-- An example LTS whose only action is a. -/
def exActA : LTS := ⟨["s"], ["a"], []⟩

/-- An example LTS whose only action is b. -/
def exActB : LTS := ⟨["s"], ["b"], []⟩

/-! ### Basic lemmas about the list-level helpers -/

theorem mem_sortedList {B : Block} {x : String} : x ∈ sortedList B ↔ x ∈ B := by
  cases B with
  | mk val nodup =>
    revert nodup
    refine Quotient.inductionOn val ?_
    intro l nodup
    show x ∈ l.insertionSort strLe ↔ _
    rw [(l.perm_insertionSort strLe).mem_iff]
    simp

theorem mem_insertNew {l : List String} {x y : String} :
    x ∈ insertNew l y ↔ x ∈ l ∨ x = y := by
  unfold insertNew
  by_cases h : y ∈ l
  · simp only [if_pos h]
    constructor
    · exact Or.inl
    · rintro (hx | rfl) <;> assumption
  · simp [if_neg h]

theorem mem_transFrom {transitions : List (String × String × String)} {s : String}
    {p : String × String} :
    p ∈ transFrom transitions s ↔ (s, p.1, p.2) ∈ transitions := by
  unfold transFrom
  rw [List.mem_filterMap]
  constructor
  · rintro ⟨tr, htr, heq⟩
    by_cases h : tr.1 = s
    · simp only [if_pos h] at heq
      obtain rfl := Option.some.inj heq
      obtain ⟨t1, t2, t3⟩ := tr
      simp_all
    · simp [if_neg h] at heq
  · intro h
    exact ⟨(s, p.1, p.2), h, by simp⟩

theorem findBlock_mem {partition : List Block} {u : String} {B : Block}
    (h : findBlock partition u = some B) : B ∈ partition ∧ u ∈ B := by
  refine ⟨List.mem_of_find?_eq_some h, ?_⟩
  have := List.find?_some h
  simpa using this

theorem findBlock_isSome {partition : List Block} {u : String} {B : Block}
    (hB : B ∈ partition) (hu : u ∈ B) : ∃ C, findBlock partition u = some C := by
  have : (findBlock partition u).isSome := by
    rw [findBlock, List.find?_isSome]
    exact ⟨B, hB, by simpa using hu⟩
  exact Option.isSome_iff_exists.mp this

theorem find?_congr {α : Type} {l : List α} {p q : α → Bool}
    (h : ∀ x ∈ l, p x = q x) : l.find? p = l.find? q := by
  induction l with
  | nil => rfl
  | cons a l ih =>
    have ha := h a (List.mem_cons_self a l)
    rw [List.find?_cons, List.find?_cons, ha]
    cases q a with
    | true => rfl
    | false => exact ih (fun x hx => h x (List.mem_cons_of_mem a hx))

theorem findBlock_congr {partition : List Block} {u v : String}
    (h : ∀ B ∈ partition, u ∈ B ↔ v ∈ B) :
    findBlock partition u = findBlock partition v := by
  unfold findBlock
  refine find?_congr (fun B hB => ?_)
  have := h B hB
  by_cases hu : u ∈ B
  · simp [hu, this.mp hu]
  · have hv : v ∉ B := fun hv => hu (this.mpr hv)
    simp [hu, hv]

theorem mem_signature {transitions : List (String × String × String)} {a : String}
    {partition : List Block} {s : String} {blk : Block} :
    blk ∈ signature transitions a partition s ↔
      ∃ u, (s, a, u) ∈ transitions ∧ findBlock partition u = some blk := by
  unfold signature
  rw [List.mem_toFinset, List.mem_filterMap]
  constructor
  · rintro ⟨p, hp, heq⟩
    by_cases h : p.1 = a
    · simp only [if_pos h] at heq
      refine ⟨p.2, ?_, heq⟩
      have := mem_transFrom.mp hp
      rwa [h] at this
    · simp [if_neg h] at heq
  · rintro ⟨u, hu, hfind⟩
    exact ⟨(a, u), mem_transFrom.mpr hu, by simpa using hfind⟩

/-- A list of length at most one has at most one member. -/
theorem eq_of_mem_length_le_one {α : Type} {l : List α} (h : l.length ≤ 1)
    {x y : α} (hx : x ∈ l) (hy : y ∈ l) : x = y := by
  match l with
  | [] => cases hx
  | [a] =>
    rw [List.mem_singleton] at hx hy
    rw [hx, hy]
  | a :: b :: l => simp at h

/-- A non-empty list all of whose elements equal k deduplicates to the
singleton list containing k. -/
theorem dedup_eq_singleton {α : Type} [DecidableEq α] {l : List α} {k : α}
    (hne : l ≠ []) (hall : ∀ x ∈ l, x = k) : l.dedup = [k] := by
  induction l with
  | nil => exact absurd rfl hne
  | cons a l ih =>
    obtain rfl := hall a (List.mem_cons_self a l)
    by_cases hl : l = []
    · subst hl
      simp
    · have hd := ih hl (fun x hx => hall x (List.mem_cons_of_mem a hx))
      rw [List.dedup_cons_of_mem, hd]
      have : l.dedup = [a] := hd
      have : a ∈ l.dedup := by rw [this]; exact List.mem_singleton_self a
      exact List.mem_dedup.mp this

/-! ### Lemmas about split_block -/

theorem mem_blocksUnion {P : List Block} {x : String} :
    x ∈ blocksUnion P ↔ ∃ B ∈ P, x ∈ B := by
  induction P with
  | nil => simp [blocksUnion]
  | cons B P ih =>
    simp only [blocksUnion, List.foldr_cons, Finset.mem_union]
    rw [show P.foldr (· ∪ ·) ∅ = blocksUnion P from rfl]
    rw [ih]
    simp

theorem split_block_subset {block : Block} {action : String} {partition : List Block}
    {transitions : List (String × String × String)} {C : Block}
    (hC : C ∈ split_block block action partition transitions) : C ⊆ block := by
  unfold split_block at hC
  obtain ⟨k, _, rfl⟩ := List.mem_map.mp hC
  exact Finset.filter_subset _ _

theorem split_block_nonempty {block : Block} {action : String} {partition : List Block}
    {transitions : List (String × String × String)} {C : Block}
    (hC : C ∈ split_block block action partition transitions) : C.Nonempty := by
  unfold split_block at hC
  obtain ⟨k, hk, rfl⟩ := List.mem_map.mp hC
  obtain ⟨s, hs, hsig⟩ := List.mem_map.mp (List.mem_dedup.mp hk)
  exact ⟨s, Finset.mem_filter.mpr ⟨mem_sortedList.mp hs, hsig⟩⟩

theorem split_block_pairwise (block : Block) (action : String) (partition : List Block)
    (transitions : List (String × String × String)) :
    List.Pairwise (fun A B => Disjoint A B)
      (split_block block action partition transitions) := by
  unfold split_block
  rw [List.pairwise_map]
  refine List.Pairwise.imp ?_ (List.nodup_dedup _)
  intro k1 k2 hne
  rw [Finset.disjoint_left]
  intro x hx1 hx2
  rw [Finset.mem_filter] at hx1 hx2
  exact hne (hx1.2 ▸ hx2.2)

theorem exists_mem_split_block {block : Block} {action : String} {partition : List Block}
    {transitions : List (String × String × String)} {x : String} (hx : x ∈ block) :
    ∃ C ∈ split_block block action partition transitions, x ∈ C := by
  unfold split_block
  refine ⟨block.filter
      (fun s => signature transitions action partition s
        = signature transitions action partition x), ?_, ?_⟩
  · refine List.mem_map.mpr ⟨signature transitions action partition x, ?_, rfl⟩
    exact List.mem_dedup.mpr
      (List.mem_map.mpr ⟨x, mem_sortedList.mpr hx, rfl⟩)
  · exact Finset.mem_filter.mpr ⟨hx, rfl⟩

theorem split_block_union (block : Block) (action : String) (partition : List Block)
    (transitions : List (String × String × String)) :
    blocksUnion (split_block block action partition transitions) = block := by
  ext x
  rw [mem_blocksUnion]
  constructor
  · rintro ⟨C, hC, hx⟩
    exact split_block_subset hC hx
  · exact exists_mem_split_block

theorem sig_eq_of_split_block_length_le_one {block : Block} {action : String}
    {partition : List Block} {transitions : List (String × String × String)}
    (h : (split_block block action partition transitions).length ≤ 1)
    {s t : String} (hs : s ∈ block) (ht : t ∈ block) :
    signature transitions action partition s = signature transitions action partition t := by
  unfold split_block at h
  rw [List.length_map] at h
  refine eq_of_mem_length_le_one h ?_ ?_
  · exact List.mem_dedup.mpr (List.mem_map.mpr ⟨s, mem_sortedList.mpr hs, rfl⟩)
  · exact List.mem_dedup.mpr (List.mem_map.mpr ⟨t, mem_sortedList.mpr ht, rfl⟩)

theorem split_block_of_const_sig {block : Block} {action : String}
    {partition : List Block} {transitions : List (String × String × String)}
    (hne : block.Nonempty)
    (hconst : ∀ s ∈ block, ∀ t ∈ block,
      signature transitions action partition s = signature transitions action partition t) :
    split_block block action partition transitions = [block] := by
  obtain ⟨s0, hs0⟩ := hne
  unfold split_block
  have hsortne : sortedList block ≠ [] := by
    intro h
    have := mem_sortedList.mpr hs0
    rw [h] at this
    cases this
  have hdedup : ((sortedList block).map
      (signature transitions action partition)).dedup
        = [signature transitions action partition s0] := by
    refine dedup_eq_singleton ?_ ?_
    · intro h
      rw [List.map_eq_nil_iff] at h
      exact hsortne h
    · intro x hx
      obtain ⟨t, ht, rfl⟩ := List.mem_map.mp hx
      exact hconst t (mem_sortedList.mp ht) s0 hs0
  rw [hdedup, List.map_singleton]
  congr 1
  refine Finset.filter_true_of_mem ?_
  intro t ht
  exact hconst t ht s0 hs0

/-! ### Lemmas about splitFirst, refineBlock and onePass -/

theorem splitFirst_some {acts : List String} {block : Block} {partition : List Block}
    {transitions : List (String × String × String)} {subs : List Block}
    (h : splitFirst acts block partition transitions = some subs) :
    ∃ a ∈ acts, subs = split_block block a partition transitions ∧ 1 < subs.length := by
  induction acts with
  | nil => cases h
  | cons a rest ih =>
    unfold splitFirst at h
    by_cases hlen : 1 < (split_block block a partition transitions).length
    · simp only [if_pos hlen] at h
      obtain rfl := Option.some.inj h
      exact ⟨a, List.mem_cons_self a rest, rfl, hlen⟩
    · simp only [if_neg hlen] at h
      obtain ⟨b, hb, heq, hl⟩ := ih h
      exact ⟨b, List.mem_cons_of_mem a hb, heq, hl⟩

theorem splitFirst_none {acts : List String} {block : Block} {partition : List Block}
    {transitions : List (String × String × String)}
    (h : splitFirst acts block partition transitions = none) :
    ∀ a ∈ acts, (split_block block a partition transitions).length ≤ 1 := by
  induction acts with
  | nil => intro a ha; cases ha
  | cons a rest ih =>
    unfold splitFirst at h
    by_cases hlen : 1 < (split_block block a partition transitions).length
    · simp [if_pos hlen] at h
    · simp only [if_neg hlen] at h
      intro b hb
      rcases List.mem_cons.mp hb with rfl | hb
      · omega
      · exact ih h b hb

theorem refineBlock_cases (lts : LTS) (partition : List Block) (block : Block) :
    refineBlock lts partition block = ([block], false) ∨
    ∃ a ∈ lts.actions,
      refineBlock lts partition block = (split_block block a partition lts.trans, true) ∧
      1 < (split_block block a partition lts.trans).length := by
  unfold refineBlock
  by_cases hc : block.card ≤ 1
  · left; simp [hc]
  · rcases hsf : splitFirst lts.actions block partition lts.trans with _ | subs
    · left; simp [hc, hsf]
    · right
      obtain ⟨a, ha, rfl, hlen⟩ := splitFirst_some hsf
      exact ⟨a, ha, by simp [hc, hsf], hlen⟩

theorem refineBlock_stable {lts : LTS} {partition : List Block} {block : Block}
    (h : (refineBlock lts partition block).2 = false) :
    ∀ a ∈ lts.actions, ∀ s ∈ block, ∀ t ∈ block,
      signature lts.trans a partition s = signature lts.trans a partition t := by
  intro a ha s hs t ht
  unfold refineBlock at h
  by_cases hc : block.card ≤ 1
  · have : s = t := Finset.card_le_one.mp hc s hs t ht
    rw [this]
  · rcases hsf : splitFirst lts.actions block partition lts.trans with _ | subs
    · exact sig_eq_of_split_block_length_le_one (splitFirst_none hsf a ha) hs ht
    · rw [if_neg hc, hsf] at h
      cases h

theorem refineBlock_subset {lts : LTS} {partition : List Block} {block : Block}
    {C : Block} (hC : C ∈ (refineBlock lts partition block).1) : C ⊆ block := by
  rcases refineBlock_cases lts partition block with heq | ⟨a, _, heq, _⟩ <;> rw [heq] at hC
  · rw [List.mem_singleton] at hC
    rw [hC]
  · exact split_block_subset hC

theorem refineBlock_nonempty {lts : LTS} {partition : List Block} {block : Block}
    (hb : block.Nonempty) {C : Block} (hC : C ∈ (refineBlock lts partition block).1) :
    C.Nonempty := by
  rcases refineBlock_cases lts partition block with heq | ⟨a, _, heq, _⟩ <;> rw [heq] at hC
  · rw [List.mem_singleton] at hC
    rw [hC]; exact hb
  · exact split_block_nonempty hC

theorem refineBlock_pairwise (lts : LTS) (partition : List Block) (block : Block) :
    List.Pairwise (fun A B => Disjoint A B) (refineBlock lts partition block).1 := by
  rcases refineBlock_cases lts partition block with heq | ⟨a, _, heq, _⟩ <;> rw [heq]
  · simp
  · exact split_block_pairwise block a partition lts.trans

theorem refineBlock_cover {lts : LTS} {partition : List Block} {block : Block}
    {x : String} :
    x ∈ block ↔ ∃ C ∈ (refineBlock lts partition block).1, x ∈ C := by
  constructor
  · intro hx
    rcases refineBlock_cases lts partition block with heq | ⟨a, _, heq, _⟩ <;> rw [heq]
    · exact ⟨block, List.mem_singleton_self block, hx⟩
    · exact exists_mem_split_block hx
  · rintro ⟨C, hC, hx⟩
    exact refineBlock_subset hC hx

theorem refineBlock_length_pos (lts : LTS) (partition : List Block) (block : Block) :
    1 ≤ (refineBlock lts partition block).1.length := by
  rcases refineBlock_cases lts partition block with heq | ⟨a, _, heq, hlen⟩ <;> rw [heq]
  · simp
  · show 1 ≤ (split_block block a partition lts.trans).length
    omega

theorem refineBlock_length_two {lts : LTS} {partition : List Block} {block : Block}
    (h : (refineBlock lts partition block).2 = true) :
    2 ≤ (refineBlock lts partition block).1.length := by
  rcases refineBlock_cases lts partition block with heq | ⟨a, _, heq, hlen⟩ <;> rw [heq] at h ⊢
  · cases h
  · show 2 ≤ (split_block block a partition lts.trans).length
    omega

theorem mem_onePass {lts : LTS} {P : List Block} {C : Block} :
    C ∈ (onePass lts P).1 ↔ ∃ B ∈ P, C ∈ (refineBlock lts P B).1 := by
  unfold onePass
  simp only [List.map_map, List.mem_flatten, List.mem_map]
  constructor
  · rintro ⟨l, ⟨B, hB, rfl⟩, hC⟩
    exact ⟨B, hB, hC⟩
  · rintro ⟨B, hB, hC⟩
    exact ⟨(refineBlock lts P B).1, ⟨B, hB, rfl⟩, hC⟩

theorem onePass_snd {lts : LTS} {P : List Block} :
    (onePass lts P).2 = true ↔ ∃ B ∈ P, (refineBlock lts P B).2 = true := by
  unfold onePass
  simp [List.any_eq_true]

theorem onePass_fst_length (lts : LTS) (P : List Block) :
    (onePass lts P).1.length = (P.map (fun B => (refineBlock lts P B).1.length)).sum := by
  unfold onePass
  simp [List.length_flatten, List.map_map, Function.comp_def]

/-- A list of positive naturals is no longer than its sum. -/
theorem length_le_sum {l : List Nat} (h : ∀ n ∈ l, 1 ≤ n) : l.length ≤ l.sum := by
  induction l with
  | nil => simp
  | cons n l ih =>
    have h1 := h n (List.mem_cons_self n l)
    have h2 := ih (fun m hm => h m (List.mem_cons_of_mem n hm))
    simp only [List.length_cons, List.sum_cons]
    omega

/-- A list of positive naturals with an element at least two is strictly
shorter than its sum. -/
theorem length_lt_sum {l : List Nat} (h : ∀ n ∈ l, 1 ≤ n)
    (h2 : ∃ n ∈ l, 2 ≤ n) : l.length < l.sum := by
  induction l with
  | nil => obtain ⟨n, hn, _⟩ := h2; cases hn
  | cons n l ih =>
    have h1 := h n (List.mem_cons_self n l)
    have hrest : ∀ m ∈ l, 1 ≤ m := fun m hm => h m (List.mem_cons_of_mem n hm)
    simp only [List.length_cons, List.sum_cons]
    rcases h2 with ⟨m, hm, hm2⟩
    rcases List.mem_cons.mp hm with rfl | hm
    · have := length_le_sum hrest
      omega
    · have := ih (fun x hx => h x (List.mem_cons_of_mem n hx)) ⟨m, hm, hm2⟩
      omega

theorem onePass_length_ge (lts : LTS) (P : List Block) :
    P.length ≤ (onePass lts P).1.length := by
  rw [onePass_fst_length]
  have := length_le_sum (l := P.map (fun B => (refineBlock lts P B).1.length))
    (fun n hn => by
      obtain ⟨B, _, rfl⟩ := List.mem_map.mp hn
      exact refineBlock_length_pos lts P B)
  simpa using this

theorem onePass_length_lt {lts : LTS} {P : List Block}
    (h : (onePass lts P).2 = true) : P.length < (onePass lts P).1.length := by
  rw [onePass_fst_length]
  obtain ⟨B, hB, hsnd⟩ := onePass_snd.mp h
  have := length_lt_sum (l := P.map (fun B => (refineBlock lts P B).1.length))
    (fun n hn => by
      obtain ⟨C, _, rfl⟩ := List.mem_map.mp hn
      exact refineBlock_length_pos lts P C)
    ⟨(refineBlock lts P B).1.length, List.mem_map.mpr ⟨B, hB, rfl⟩,
      refineBlock_length_two hsnd⟩
  simpa using this

/-! ### Preservation of partition validity and the termination argument -/

theorem onePass_isPartition {lts : LTS} {S : Finset String} {P : List Block}
    (hP : isPartition S P) : isPartition S (onePass lts P).1 := by
  obtain ⟨hne, hdis, hun⟩ := hP
  refine ⟨?_, ?_, ?_⟩
  · intro C hC
    obtain ⟨B, hB, hC⟩ := mem_onePass.mp hC
    exact refineBlock_nonempty (hne B hB) hC
  · show List.Pairwise _ (((P.map (refineBlock lts P)).map Prod.fst).flatten)
    rw [List.map_map, List.pairwise_flatten]
    constructor
    · intro l hl
      obtain ⟨B, hB, rfl⟩ := List.mem_map.mp hl
      exact refineBlock_pairwise lts P B
    · rw [List.pairwise_map]
      refine hdis.imp ?_
      intro B1 B2 hd C1 hC1 C2 hC2
      exact Finset.disjoint_of_subset_left (refineBlock_subset hC1)
        (Finset.disjoint_of_subset_right (refineBlock_subset hC2) hd)
  · ext x
    rw [mem_blocksUnion, ← hun, mem_blocksUnion]
    constructor
    · rintro ⟨C, hC, hx⟩
      obtain ⟨B, hB, hC⟩ := mem_onePass.mp hC
      exact ⟨B, hB, refineBlock_subset hC hx⟩
    · rintro ⟨B, hB, hx⟩
      obtain ⟨C, hC, hx⟩ := refineBlock_cover.mp hx
      exact ⟨C, mem_onePass.mpr ⟨B, hB, hC⟩, hx⟩

theorem disjoint_blocksUnion {B : Block} {P : List Block}
    (h : ∀ A ∈ P, Disjoint B A) : Disjoint B (blocksUnion P) := by
  induction P with
  | nil => simp [blocksUnion]
  | cons A P ih =>
    show Disjoint B (A ∪ blocksUnion P)
    rw [Finset.disjoint_union_right]
    exact ⟨h A (List.mem_cons_self A P),
      ih (fun C hC => h C (List.mem_cons_of_mem A hC))⟩

theorem isPartition_length_le {S : Finset String} {P : List Block}
    (hP : isPartition S P) : P.length ≤ S.card := by
  induction P generalizing S with
  | nil => simp
  | cons B P ih =>
    obtain ⟨hne, hdis, hun⟩ := hP
    have hBU : Disjoint B (blocksUnion P) :=
      disjoint_blocksUnion (fun A hA => List.rel_of_pairwise_cons hdis hA)
    have hcard : S.card = B.card + (blocksUnion P).card := by
      rw [← hun]
      show (B ∪ blocksUnion P).card = _
      exact Finset.card_union_of_disjoint hBU
    have hB : 1 ≤ B.card :=
      Finset.card_pos.mpr (hne B (List.mem_cons_self B P))
    have htail : P.length ≤ (blocksUnion P).card :=
      ih ⟨fun A hA => hne A (List.mem_cons_of_mem B hA), hdis.of_cons, rfl⟩
    simp only [List.length_cons]
    omega

theorem ksLoop_isPartition {lts : LTS} {S : Finset String} (fuel : Nat) {P : List Block}
    (hP : isPartition S P) : isPartition S (ksLoop lts fuel P) := by
  induction fuel generalizing P with
  | zero => exact hP
  | succ fuel ih =>
    by_cases h : (onePass lts P).2
    · simpa [ksLoop, h] using ih (onePass_isPartition hP)
    · simpa [ksLoop, h] using hP

theorem ksLoop_fix {lts : LTS} {S : Finset String} (fuel : Nat) {P : List Block}
    (hP : isPartition S P) (hfuel : S.card + 1 ≤ fuel + P.length) :
    (onePass lts (ksLoop lts fuel P)).2 = false := by
  induction fuel generalizing P with
  | zero =>
    have := isPartition_length_le hP
    omega
  | succ fuel ih =>
    by_cases h : (onePass lts P).2
    · have hlt := onePass_length_lt h
      have := ih (P := (onePass lts P).1) (onePass_isPartition hP) (by omega)
      simpa [ksLoop, h] using this
    · simp only [ksLoop, h, if_neg]
      simpa using h

theorem isPartition_trivial {S : Finset String} (h : S.Nonempty) : isPartition S [S] := by
  refine ⟨?_, ?_, ?_⟩
  · intro B hB
    rw [List.mem_singleton] at hB
    rw [hB]; exact h
  · simp
  · show S ∪ ∅ = S
    exact Finset.union_empty S

theorem kanellakis_smolka_isPartition {lts : LTS}
    (h : lts.states.toFinset.Nonempty) :
    isPartition lts.states.toFinset (kanellakis_smolka lts) := by
  rw [kanellakis_smolka, if_neg (Finset.nonempty_iff_ne_empty.mp h)]
  exact ksLoop_isPartition _ (isPartition_trivial h)

theorem ks_fixpoint (lts : LTS) :
    (onePass lts (kanellakis_smolka lts)).2 = false := by
  by_cases h : lts.states.toFinset = ∅
  · rw [kanellakis_smolka, if_pos h]
    rfl
  · rw [kanellakis_smolka, if_neg h]
    refine ksLoop_fix _ (isPartition_trivial (Finset.nonempty_iff_ne_empty.mpr h)) ?_
    simp

/-! ### Stability of the fixed point and bisimulation machinery -/

theorem onePass_stable {lts : LTS} {P : List Block}
    (h : (onePass lts P).2 = false) :
    ∀ B ∈ P, ∀ a ∈ lts.actions, ∀ s ∈ B, ∀ t ∈ B,
      signature lts.trans a P s = signature lts.trans a P t := by
  intro B hB
  have hfalse : (refineBlock lts P B).2 = false := by
    by_contra hc
    rw [Bool.not_eq_false] at hc
    have := onePass_snd.mpr ⟨B, hB, hc⟩
    rw [h] at this
    cases this
  exact refineBlock_stable hfalse

theorem signature_empty_of_not_mem {lts : LTS} (hwf : wf lts) {a : String}
    (ha : a ∉ lts.actions) (P : List Block) (s : String) :
    signature lts.trans a P s = ∅ := by
  ext blk
  simp only [Finset.not_mem_empty, iff_false]
  rw [mem_signature]
  rintro ⟨u, hu, _⟩
  exact ha (hwf _ hu).2.1

theorem sig_eq_of_bisim {lts : LTS} (hwf : wf lts) {R : String → String → Prop}
    (hR : IsBisimulation lts R) {P : List Block} (hresp : respects lts P R)
    {s t : String} (hst : R s t) (a : String) :
    signature lts.trans a P s = signature lts.trans a P t := by
  ext blk
  rw [mem_signature, mem_signature]
  constructor
  · rintro ⟨u, hu, hfind⟩
    obtain ⟨v, hv, huv⟩ := (hR s t hst).1 a u hu
    refine ⟨v, hv, ?_⟩
    rw [← hfind]
    exact (findBlock_congr
      (hresp u v huv (hwf _ hu).2.2 (hwf _ hv).2.2)).symm
  · rintro ⟨v, hv, hfind⟩
    obtain ⟨u, hu, huv⟩ := (hR s t hst).2 a v hv
    refine ⟨u, hu, ?_⟩
    rw [← hfind]
    exact findBlock_congr
      (hresp u v huv (hwf _ hu).2.2 (hwf _ hv).2.2)

theorem respects_onePass {lts : LTS} (hwf : wf lts) {R : String → String → Prop}
    (hR : IsBisimulation lts R) {P : List Block} (hresp : respects lts P R) :
    respects lts (onePass lts P).1 R := by
  intro s t hst hs ht C hC
  obtain ⟨B, hB, hC⟩ := mem_onePass.mp hC
  rcases refineBlock_cases lts P B with heq | ⟨a, ha, heq, _⟩ <;> rw [heq] at hC
  · rw [List.mem_singleton] at hC
    subst hC
    exact hresp s t hst hs ht C hB
  · unfold split_block at hC
    obtain ⟨k, hk, rfl⟩ := List.mem_map.mp hC
    have hsig : signature lts.trans a P s = signature lts.trans a P t :=
      sig_eq_of_bisim hwf hR hresp hst a
    have hB2 := hresp s t hst hs ht B hB
    simp only [Finset.mem_filter]
    rw [hsig, hB2]

theorem respects_ksLoop {lts : LTS} (hwf : wf lts) {R : String → String → Prop}
    (hR : IsBisimulation lts R) (fuel : Nat) {P : List Block}
    (hresp : respects lts P R) : respects lts (ksLoop lts fuel P) R := by
  induction fuel generalizing P with
  | zero => exact hresp
  | succ fuel ih =>
    by_cases h : (onePass lts P).2
    · simpa [ksLoop, h] using ih (respects_onePass hwf hR hresp)
    · simpa [ksLoop, h] using hresp

theorem respects_ks {lts : LTS} (hwf : wf lts) {R : String → String → Prop}
    (hR : IsBisimulation lts R) : respects lts (kanellakis_smolka lts) R := by
  by_cases h : lts.states.toFinset = ∅
  · rw [kanellakis_smolka, if_pos h]
    intro s t _ _ _ B hB
    cases hB
  · rw [kanellakis_smolka, if_neg h]
    refine respects_ksLoop hwf hR _ ?_
    intro s t _ hs ht B hB
    rw [List.mem_singleton] at hB
    subst hB
    simp [List.mem_toFinset, hs, ht]

theorem bisimilar_to_sameBlock {lts : LTS} (hwf : wf lts) {s t : String}
    (hs : s ∈ lts.states) (ht : t ∈ lts.states) (hbis : Bisimilar lts s t) :
    inSameBlock (kanellakis_smolka lts) s t := by
  obtain ⟨R, hR, hst⟩ := hbis
  have hresp := respects_ks hwf hR
  have hSne : lts.states.toFinset.Nonempty := ⟨s, List.mem_toFinset.mpr hs⟩
  obtain ⟨hne, hdis, hun⟩ := kanellakis_smolka_isPartition hSne
  have hsU : s ∈ blocksUnion (kanellakis_smolka lts) := by
    rw [hun]
    exact List.mem_toFinset.mpr hs
  obtain ⟨B, hB, hsB⟩ := mem_blocksUnion.mp hsU
  exact ⟨B, hB, hsB, (hresp s t hst hs ht B hB).mp hsB⟩

theorem sameBlock_to_bisimilar {lts : LTS} (hwf : wf lts) {s t : String}
    (h : inSameBlock (kanellakis_smolka lts) s t) : Bisimilar lts s t := by
  refine ⟨inSameBlock (kanellakis_smolka lts), ?_, h⟩
  intro x y hxy
  obtain ⟨B, hB, hxB, hyB⟩ := hxy
  have hSne : lts.states.toFinset.Nonempty := by
    by_contra hc
    rw [Finset.not_nonempty_iff_eq_empty] at hc
    rw [kanellakis_smolka, if_pos hc] at hB
    cases hB
  obtain ⟨hne, hdis, hun⟩ := kanellakis_smolka_isPartition hSne
  constructor
  · intro a u hu
    have ha : a ∈ lts.actions := (hwf _ hu).2.1
    have hsig := onePass_stable (ks_fixpoint lts) B hB a ha x hxB y hyB
    have huS : u ∈ lts.states := (hwf _ hu).2.2
    have huU : u ∈ blocksUnion (kanellakis_smolka lts) := by
      rw [hun]
      exact List.mem_toFinset.mpr huS
    obtain ⟨Bu, hBu, huBu⟩ := mem_blocksUnion.mp huU
    obtain ⟨Bu2, hfind⟩ := findBlock_isSome hBu huBu
    have hmem : Bu2 ∈ signature lts.trans a (kanellakis_smolka lts) x :=
      mem_signature.mpr ⟨u, hu, hfind⟩
    rw [hsig] at hmem
    obtain ⟨v, hv, hfindv⟩ := mem_signature.mp hmem
    refine ⟨v, hv, Bu2, (findBlock_mem hfind).1, (findBlock_mem hfind).2,
      (findBlock_mem hfindv).2⟩
  · intro a v hv
    have ha : a ∈ lts.actions := (hwf _ hv).2.1
    have hsig := onePass_stable (ks_fixpoint lts) B hB a ha x hxB y hyB
    have hvS : v ∈ lts.states := (hwf _ hv).2.2
    have hvU : v ∈ blocksUnion (kanellakis_smolka lts) := by
      rw [hun]
      exact List.mem_toFinset.mpr hvS
    obtain ⟨Bv, hBv, hvBv⟩ := mem_blocksUnion.mp hvU
    obtain ⟨Bv2, hfind⟩ := findBlock_isSome hBv hvBv
    have hmem : Bv2 ∈ signature lts.trans a (kanellakis_smolka lts) y :=
      mem_signature.mpr ⟨v, hv, hfind⟩
    rw [← hsig] at hmem
    obtain ⟨u, hu, hfindu⟩ := mem_signature.mp hmem
    refine ⟨u, hu, Bv2, (findBlock_mem hfind).1, (findBlock_mem hfindu).2,
      (findBlock_mem hfind).2⟩

/-! ### Support lemmas for the oracle, the relabeling and add_transition -/

theorem actionsSetEq_iff {l1 l2 : List String} :
    actionsSetEq l1 l2 = true ↔ ∀ a, a ∈ l1 ↔ a ∈ l2 := by
  unfold actionsSetEq
  rw [Bool.and_eq_true, List.all_eq_true, List.all_eq_true]
  constructor
  · rintro ⟨h1, h2⟩ a
    constructor
    · intro ha
      have := h1 a ha
      rwa [List.elem_iff] at this
    · intro ha
      have := h2 a ha
      rwa [List.elem_iff] at this
  · intro h
    constructor
    · intro a ha
      rw [List.elem_iff]
      exact (h a).mp ha
    · intro a ha
      rw [List.elem_iff]
      exact (h a).mpr ha

theorem stateMap_inj {tag : String} {s t : String}
    (h : stateMap tag s = stateMap tag t) : s = t := by
  unfold stateMap at h
  have hd := congrArg String.data h
  simp only [String.data_append, List.append_assoc] at hd
  have hdata : s.data = t.data :=
    List.append_cancel_left (List.append_cancel_left hd)
  cases s; cases t; simp_all

theorem stateMap_L1_ne_L2 (s t : String) : stateMap "L1" s ≠ stateMap "L2" t := by
  intro h
  have hd := congrArg String.data h
  simp only [stateMap, String.data_append] at hd
  simp at hd

theorem insertNew_of_mem {l : List String} {x : String} (h : x ∈ l) :
    insertNew l x = l := by
  unfold insertNew
  rw [if_pos h]

/-! ### The claims -/

/-- C9: for every LTS whose state set is empty, kanellakis_smolka returns the
empty partition (zero blocks), not a partition with one trivial or empty
block. -/
theorem kanellakis_smolka_empty (lts : LTS) (h : lts.states.toFinset = ∅) :
    kanellakis_smolka lts = [] := by
  rw [kanellakis_smolka, if_pos h]

theorem kanellakis_smolka_empty_witness :
    (LTS.mk [] ["a"] []).states.toFinset = ∅ ∧
      kanellakis_smolka (LTS.mk [] ["a"] []) = [] :=
  ⟨by decide, kanellakis_smolka_empty (LTS.mk [] ["a"] []) (by decide)⟩

/-- C10: for every block, action, partition argument and transition list,
split_block returns pairwise-disjoint, non-empty sets whose union is exactly
the input block, and when all states of the (non-empty) block share one
signature — in particular when none has an outgoing transition with that
action — it returns the single group equal to the whole block. -/
theorem split_block_partitions (block : Block) (action : String)
    (partition : List Block) (transitions : List (String × String × String)) :
    (∀ C ∈ split_block block action partition transitions, C.Nonempty) ∧
    List.Pairwise (fun A B => Disjoint A B)
      (split_block block action partition transitions) ∧
    blocksUnion (split_block block action partition transitions) = block ∧
    (block.Nonempty →
      (∀ s ∈ block, ∀ t ∈ block,
        signature transitions action partition s
          = signature transitions action partition t) →
      split_block block action partition transitions = [block]) :=
  ⟨fun _ hC => split_block_nonempty hC, split_block_pairwise _ _ _ _,
    split_block_union _ _ _ _, fun hne hconst => split_block_of_const_sig hne hconst⟩

theorem split_block_partitions_witness :
    ({"s1", "s2"} : Block).Nonempty ∧
    (∀ s ∈ ({"s1", "s2"} : Block), ∀ t ∈ ({"s1", "s2"} : Block),
      signature exLTS.trans "a" [{"s", "s1", "s2"}] s
        = signature exLTS.trans "a" [{"s", "s1", "s2"}] t) ∧
    split_block {"s1", "s2"} "a" [{"s", "s1", "s2"}] exLTS.trans = [{"s1", "s2"}] :=
  ⟨by decide, by decide,
    (split_block_partitions {"s1", "s2"} "a" [{"s", "s1", "s2"}] exLTS.trans).2.2.2
      (by decide) (by decide)⟩

/-- C6: refinement is monotone: every block produced by a pass is contained in
some block of the previous partition (so no block ever grows), and the number
of blocks never decreases from one pass to the next. -/
theorem onePass_monotone (lts : LTS) (P : List Block) :
    (∀ C ∈ (onePass lts P).1, ∃ B ∈ P, C ⊆ B ∧ C.card ≤ B.card) ∧
    P.length ≤ (onePass lts P).1.length := by
  constructor
  · intro C hC
    obtain ⟨B, hB, hC⟩ := mem_onePass.mp hC
    exact ⟨B, hB, refineBlock_subset hC, Finset.card_le_card (refineBlock_subset hC)⟩
  · exact onePass_length_ge lts P

theorem onePass_monotone_witness :
    ({"s1", "s2"} : Block) ∈ (onePass exLTS [{"s", "s1", "s2"}]).1 ∧
    (∃ B ∈ [({"s", "s1", "s2"} : Block)],
      ({"s1", "s2"} : Block) ⊆ B ∧ ({"s1", "s2"} : Block).card ≤ B.card) ∧
    [({"s", "s1", "s2"} : Block)].length ≤ (onePass exLTS [{"s", "s1", "s2"}]).1.length :=
  ⟨by decide,
    (onePass_monotone exLTS [{"s", "s1", "s2"}]).1 {"s1", "s2"} (by decide),
    (onePass_monotone exLTS [{"s", "s1", "s2"}]).2⟩

/-- C5: the working partition stays a valid partition of the full state set —
non-empty blocks, pairwise disjoint, covering exactly the states — across
every pass, across the whole loop, and in particular for the returned
fixed-point partition of a non-empty LTS. -/
theorem kanellakis_smolka_valid (lts : LTS) :
    (∀ P, isPartition lts.states.toFinset P →
      isPartition lts.states.toFinset (onePass lts P).1) ∧
    (∀ fuel P, isPartition lts.states.toFinset P →
      isPartition lts.states.toFinset (ksLoop lts fuel P)) ∧
    (lts.states.toFinset.Nonempty →
      isPartition lts.states.toFinset (kanellakis_smolka lts)) :=
  ⟨fun _ hP => onePass_isPartition hP, fun fuel _ hP => ksLoop_isPartition fuel hP,
    fun h => kanellakis_smolka_isPartition h⟩

theorem kanellakis_smolka_valid_witness :
    (isPartition exLTS.states.toFinset [{"s"}, {"s1", "s2"}] ∧
      isPartition exLTS.states.toFinset (onePass exLTS [{"s"}, {"s1", "s2"}]).1) ∧
    isPartition exLTS.states.toFinset (ksLoop exLTS 2 [{"s"}, {"s1", "s2"}]) ∧
    (exLTS.states.toFinset.Nonempty ∧
      isPartition exLTS.states.toFinset (kanellakis_smolka exLTS)) :=
  ⟨⟨by decide, (kanellakis_smolka_valid exLTS).1 [{"s"}, {"s1", "s2"}] (by decide)⟩,
    (kanellakis_smolka_valid exLTS).2.1 2 [{"s"}, {"s1", "s2"}] (by decide),
    ⟨by decide, (kanellakis_smolka_valid exLTS).2.2 (by decide)⟩⟩

/-- C4: kanellakis_smolka terminates and returns a partition: every pass that
reports a change strictly increases the block count, a valid partition never
has more blocks than states, and with the fuel |States| the loop reaches a
partition on which a further pass makes no change. -/
theorem kanellakis_smolka_terminates (lts : LTS) :
    (∀ P, (onePass lts P).2 = true → P.length < (onePass lts P).1.length) ∧
    (∀ P, isPartition lts.states.toFinset P →
      P.length ≤ lts.states.toFinset.card) ∧
    (onePass lts (kanellakis_smolka lts)).2 = false :=
  ⟨fun _ h => onePass_length_lt h, fun _ hP => isPartition_length_le hP, ks_fixpoint lts⟩

theorem kanellakis_smolka_terminates_witness :
    ((onePass exLTS [{"s", "s1", "s2"}]).2 = true ∧
      [({"s", "s1", "s2"} : Block)].length < (onePass exLTS [{"s", "s1", "s2"}]).1.length) ∧
    (isPartition exLTS.states.toFinset [{"s"}, {"s1", "s2"}] ∧
      [({"s"} : Block), {"s1", "s2"}].length ≤ exLTS.states.toFinset.card) ∧
    (onePass exLTS (kanellakis_smolka exLTS)).2 = false :=
  ⟨⟨by decide, (kanellakis_smolka_terminates exLTS).1 [{"s", "s1", "s2"}] (by decide)⟩,
    ⟨by decide, (kanellakis_smolka_terminates exLTS).2.1 [{"s"}, {"s1", "s2"}] (by decide)⟩,
    (kanellakis_smolka_terminates exLTS).2.2⟩

/-- C1: for every well-formed LTS, kanellakis_smolka returns the coarsest
stable partition: every two states of one returned block have, for every
action, the same set of reachable blocks, and two states of the LTS share a
block exactly when they are strongly bisimilar. -/
theorem kanellakis_smolka_correct (lts : LTS) (hwf : wf lts) :
    (∀ B ∈ kanellakis_smolka lts, ∀ a : String, ∀ s ∈ B, ∀ t ∈ B,
      signature lts.trans a (kanellakis_smolka lts) s
        = signature lts.trans a (kanellakis_smolka lts) t) ∧
    (∀ s ∈ lts.states, ∀ t ∈ lts.states,
      (inSameBlock (kanellakis_smolka lts) s t ↔ Bisimilar lts s t)) := by
  constructor
  · intro B hB a s hs t ht
    by_cases ha : a ∈ lts.actions
    · exact onePass_stable (ks_fixpoint lts) B hB a ha s hs t ht
    · rw [signature_empty_of_not_mem hwf ha, signature_empty_of_not_mem hwf ha]
  · intro s hs t ht
    exact ⟨fun h => sameBlock_to_bisimilar hwf h,
      fun h => bisimilar_to_sameBlock hwf hs ht h⟩

theorem kanellakis_smolka_correct_witness :
    wf exLTS ∧
    ((∀ B ∈ kanellakis_smolka exLTS, ∀ a : String, ∀ s ∈ B, ∀ t ∈ B,
      signature exLTS.trans a (kanellakis_smolka exLTS) s
        = signature exLTS.trans a (kanellakis_smolka exLTS) t) ∧
    (∀ s ∈ exLTS.states, ∀ t ∈ exLTS.states,
      (inSameBlock (kanellakis_smolka exLTS) s t ↔ Bisimilar exLTS s t))) :=
  ⟨by decide, kanellakis_smolka_correct exLTS (by decide)⟩

/-- C3: whenever the two action sets differ as unordered sets,
are_bisimilar answers false, independently of states, transitions and
initial states. -/
theorem are_bisimilar_alphabet_mismatch (lts1 : LTS) (init1 : String) (lts2 : LTS)
    (init2 : String) (h : ¬ ∀ a, a ∈ lts1.actions ↔ a ∈ lts2.actions) :
    are_bisimilar lts1 init1 lts2 init2 = false := by
  have hne : actionsSetEq lts1.actions lts2.actions = false :=
    Bool.eq_false_iff.mpr (fun hc => h (actionsSetEq_iff.mp hc))
  unfold are_bisimilar
  rw [hne]
  simp

theorem are_bisimilar_alphabet_mismatch_witness :
    (¬ ∀ a, a ∈ exActA.actions ↔ a ∈ exActB.actions) ∧
    are_bisimilar exActA "s" exActB "s" = false :=
  ⟨fun h => absurd ((h "a").mp (by decide)) (by decide),
    are_bisimilar_alphabet_mismatch exActA "s" exActB "s"
      (fun h => absurd ((h "a").mp (by decide)) (by decide))⟩

/-- C2: for well-formed LTSs with equal alphabets and valid initial states,
are_bisimilar answers true exactly when the two relabelled initial states
share a block of the fixed-point partition of the merged LTS (union of the
relabelled state sets, shared alphabet, union of the relabelled transition
lists). -/
theorem are_bisimilar_iff_same_block (lts1 : LTS) (init1 : String) (lts2 : LTS)
    (init2 : String) (h1 : wf lts1) (h2 : wf lts2)
    (hA : ∀ a, a ∈ lts1.actions ↔ a ∈ lts2.actions)
    (hi1 : init1 ∈ lts1.states) (hi2 : init2 ∈ lts2.states) :
    are_bisimilar lts1 init1 lts2 init2 = true ↔
      inSameBlock
        (kanellakis_smolka
          (combineLTS (prefix_states lts1 "L1") (prefix_states lts2 "L2")))
        (stateMap "L1" init1) (stateMap "L2" init2) := by
  have hEq : actionsSetEq lts1.actions lts2.actions = true := actionsSetEq_iff.mpr hA
  unfold are_bisimilar
  rw [hEq]
  simp only [Bool.true_eq_false, if_false, List.any_eq_true, Bool.and_eq_true,
    decide_eq_true_eq]
  unfold inSameBlock
  exact Iff.rfl

theorem are_bisimilar_iff_same_block_witness :
    wf exOne ∧ wf exTwo ∧ (∀ a, a ∈ exOne.actions ↔ a ∈ exTwo.actions) ∧
    "s" ∈ exOne.states ∧ "t" ∈ exTwo.states ∧
    (are_bisimilar exOne "s" exTwo "t" = true ↔
      inSameBlock
        (kanellakis_smolka (combineLTS (prefix_states exOne "L1") (prefix_states exTwo "L2")))
        (stateMap "L1" "s") (stateMap "L2" "t")) :=
  ⟨by decide, by decide, fun a => Iff.rfl, by decide, by decide,
    are_bisimilar_iff_same_block exOne "s" exTwo "t" (by decide) (by decide)
      (fun a => Iff.rfl) (by decide) (by decide)⟩

/-- C7: prefix_states relabels bijectively — every old state maps into the
new state set, the map is injective on the old states, every new state is the
image of an old one — the relabelled LTS has the same numbers of states and
transitions, the same transition structure under the renaming and the same
actions, and relabelling two LTSs with the tags L1 and L2 yields disjoint
state sets. -/
theorem prefix_states_spec (lts : LTS) (tag : String) (ltsA ltsB : LTS) :
    (∀ s ∈ lts.states, stateMap tag s ∈ (prefix_states lts tag).states) ∧
    (∀ s ∈ lts.states, ∀ t ∈ lts.states, stateMap tag s = stateMap tag t → s = t) ∧
    (∀ x ∈ (prefix_states lts tag).states, ∃ s ∈ lts.states, stateMap tag s = x) ∧
    (prefix_states lts tag).states.toFinset.card = lts.states.toFinset.card ∧
    (prefix_states lts tag).trans
      = lts.trans.map (fun tr => (stateMap tag tr.1, tr.2.1, stateMap tag tr.2.2)) ∧
    (prefix_states lts tag).trans.length = lts.trans.length ∧
    (prefix_states lts tag).actions = lts.actions ∧
    (∀ x ∈ (prefix_states ltsA "L1").states, x ∉ (prefix_states ltsB "L2").states) := by
  refine ⟨?_, ?_, ?_, ?_, rfl, ?_, rfl, ?_⟩
  · intro s hs
    exact List.mem_map.mpr ⟨s, hs, rfl⟩
  · intro s _ t _ h
    exact stateMap_inj h
  · intro x hx
    obtain ⟨s, hs, rfl⟩ := List.mem_map.mp hx
    exact ⟨s, hs, rfl⟩
  · show (lts.states.map (stateMap tag)).toFinset.card = _
    have himg : (lts.states.map (stateMap tag)).toFinset
        = lts.states.toFinset.image (stateMap tag) := by
      ext x
      simp
    rw [himg]
    exact Finset.card_image_of_injective _ (fun a b h => stateMap_inj h)
  · show (lts.trans.map _).length = _
    rw [List.length_map]
  · intro x hx hx2
    obtain ⟨s, _, rfl⟩ := List.mem_map.mp hx
    obtain ⟨t, _, heq⟩ := List.mem_map.mp hx2
    exact stateMap_L1_ne_L2 s t heq.symm

theorem prefix_states_spec_witness :
    "s" ∈ exLTS.states ∧ stateMap "T" "s" ∈ (prefix_states exLTS "T").states ∧
    stateMap "L1" "s" ∈ (prefix_states exOne "L1").states ∧
    stateMap "L1" "s" ∉ (prefix_states exTwo "L2").states :=
  ⟨by decide, (prefix_states_spec exLTS "T" exOne exTwo).1 "s" (by decide),
    by decide,
    (prefix_states_spec exLTS "T" exOne exTwo).2.2.2.2.2.2.2
      (stateMap "L1" "s") (by decide)⟩

/-- C8: add_transition accepts any triple, only ever grows or preserves the
state and action sets, appends the triple to the ordered transition list even
when it is a duplicate, and re-inserting a triple already present in a
well-formed LTS leaves States and Actions unchanged. -/
theorem add_transition_spec (lts : LTS) (source action target : String) :
    (∀ x ∈ lts.states, x ∈ (add_transition lts source action target).states) ∧
    (∀ a ∈ lts.actions, a ∈ (add_transition lts source action target).actions) ∧
    (add_transition lts source action target).trans
      = lts.trans ++ [(source, action, target)] ∧
    (wf lts → (source, action, target) ∈ lts.trans →
      (add_transition lts source action target).states = lts.states ∧
      (add_transition lts source action target).actions = lts.actions) := by
  refine ⟨?_, ?_, rfl, ?_⟩
  · intro x hx
    show x ∈ insertNew (insertNew lts.states source) target
    rw [mem_insertNew, mem_insertNew]
    exact Or.inl (Or.inl hx)
  · intro a ha
    show a ∈ insertNew lts.actions action
    rw [mem_insertNew]
    exact Or.inl ha
  · intro hwf hmem
    obtain ⟨hs, ha, ht⟩ := hwf _ hmem
    constructor
    · show insertNew (insertNew lts.states source) target = lts.states
      rw [insertNew_of_mem hs, insertNew_of_mem ht]
    · exact insertNew_of_mem ha

theorem add_transition_spec_witness :
    "s" ∈ exLTS.states ∧ "s" ∈ (add_transition exLTS "s" "a" "s1").states ∧
    wf exLTS ∧ ("s", "a", "s1") ∈ exLTS.trans ∧
    (add_transition exLTS "s" "a" "s1").states = exLTS.states ∧
    (add_transition exLTS "s" "a" "s1").actions = exLTS.actions :=
  ⟨by decide, (add_transition_spec exLTS "s" "a" "s1").1 "s" (by decide),
    by decide, by decide,
    ((add_transition_spec exLTS "s" "a" "s1").2.2.2 (by decide) (by decide)).1,
    ((add_transition_spec exLTS "s" "a" "s1").2.2.2 (by decide) (by decide)).2⟩

end KS
